import Mathlib

/-!
Shallow embedding of `scripts/generate_mypage.py` (MypageGenerator):
book-info extraction, keyword categorization, reading-pattern analysis,
profile building, the displayed category percentages, and the user/network
registry operations (upsert, edge inference, load bootstrap).

String primitives of the host language (`str.split`, `str.strip`,
`str.lower`, `in`, `', '.join`) are re-implemented here by structural
recursion over the character list of the string, so that every definition
is executable by the kernel.  `str.lower` is modelled ASCII-only
(`Char.toLower`), which agrees with Python on the ASCII and Japanese text
this program handles.
-/

namespace Mypage

/-! ## String helpers -/

/-- Python `str.strip()` on the character list: drop leading and trailing
whitespace. -/
def stripChars (cs : List Char) : List Char :=
  ((cs.dropWhile Char.isWhitespace).reverse.dropWhile Char.isWhitespace).reverse

/-- Python `str.strip()`. -/
def stripStr (s : String) : String :=
  String.mk (stripChars s.data)

/-- Python `str.lower()` (ASCII case folding). -/
def strToLower (s : String) : String :=
  String.mk (s.data.map Char.toLower)

/-- Models `re.sub(r'\s*;.*$', '', title)`: if the string contains a
semicolon, keep only the characters before the first semicolon and drop the
run of whitespace immediately preceding it; otherwise leave it unchanged. -/
def truncAtSemicolon (s : String) : String :=
  if s.data.contains ';' then
    String.mk (((s.data.takeWhile (fun c => c ≠ ';')).reverse.dropWhile Char.isWhitespace).reverse)
  else s

/-- `needle` occurs at the start of `hay`. -/
def listStartsWith : List Char → List Char → Bool
  | [], _ => true
  | _ :: _, [] => false
  | n :: ns, h :: hs => n == h && listStartsWith ns hs

/-- `needle` occurs contiguously somewhere in `hay` (Python `in` on str). -/
def listHasSub (needle : List Char) : List Char → Bool
  | [] => needle.isEmpty
  | h :: hs => listStartsWith needle (h :: hs) || listHasSub needle hs

/-- Python `kw in text` substring test on strings. -/
def strHasSub (needle hay : String) : Bool :=
  listHasSub needle.data hay.data

/-- Python `title_author.split(' / ')` on the character list: split at each
non-overlapping occurrence of the three-character separator `" / "`,
scanning left to right.  `cur` is the reversed current segment. -/
def splitTAAux (cur : List Char) : List Char → List (List Char)
  | [] => [cur.reverse]
  | [c] => [(c :: cur).reverse]
  | [c, d] => [(d :: c :: cur).reverse]
  | c :: d :: e :: cs =>
    if c = ' ' ∧ d = '/' ∧ e = ' ' then cur.reverse :: splitTAAux [] cs
    else splitTAAux (c :: cur) (d :: e :: cs)

/-- Python `title_author.split(' / ')`. -/
def splitTA (s : String) : List String :=
  (splitTAAux [] s.data).map String.mk

/-- Python `', '.join` (and the general `sep.join`). -/
def joinSep (sep : String) : List String → String
  | [] => ""
  | [s] => s
  | s :: rest => s ++ sep ++ joinSep sep rest

/-! ## Book classifier (`extract_book_info`, `categorize_book`) -/

/-- The author sentinel the source uses when no `" / "` separator is present
(Japanese for "unknown"). -/
def unknownAuthor : String := "不明"

/-- `extract_book_info` (generate_mypage.py lines 85-95): split the raw
title/author string on the literal `" / "`; the title is the stripped first
segment with everything from the first semicolon on removed; the author is
the stripped second segment, or the sentinel when there is only one
segment.  Segments after the second are discarded (the source reads only
`parts[1]`). -/
def extract_book_info (title_author : String) : String × String :=
  let parts := splitTA title_author
  let title := stripStr (parts.headD (""))
  let author :=
    match parts with
    | _ :: a :: _ => stripStr a
    | _ => unknownAuthor
  (truncAtSemicolon title, author)

/-- `self.category_keywords` (generate_mypage.py lines 32-43), in the
declaration order of the Python dict (dicts preserve insertion order). -/
def category_keywords : List (String × List String) := [
  ("control-theory", ["制御", "ロバスト", "最適制御", "非線形", "システム制御"]),
  ("system-identification", ["システム同定", "同定", "部分空間", "パラメータ推定"]),
  ("data-assimilation", ["データ同化", "同化", "観測", "カルマン"]),
  ("meteorology", ["気象", "大気", "気候", "天気"]),
  ("numerical-weather", ["数値予報", "予報", "数値", "気象予測"]),
  ("fluid-dynamics", ["流体", "動力学", "非線形動力"]),
  ("mathematics", ["数学", "統計", "代数", "幾何", "確率", "統計力学"]),
  ("data-analysis", ["データ解析", "データマイニング", "位相的", "構造発見"]),
  ("machine-learning", ["機械学習", "深層学習", "AI", "ニューラル"]),
  ("programming", ["プログラミング", "Python", "アルゴリズム"])]

/-- One table entry fires on `text`: some keyword of the entry, lower-cased,
is a substring of `text`. -/
def kwHit (text : String) (entry : String × List String) : Bool :=
  entry.2.any (fun kw => strHasSub (strToLower kw) text)

/-- The loop of `categorize_book`: scan the keyword table in order and
return the first category with a keyword hit, `"other"` if none. -/
def categorizeScan (text : String) : List (String × List String) → String
  | [] => "other"
  | entry :: rest => if kwHit text entry then entry.1 else categorizeScan text rest

/-- `categorize_book` (generate_mypage.py lines 97-107): lower-case
`"{title} {author}"` and scan `category_keywords` in table order, returning
the category of the first keyword that is a substring; `"other"` if no
keyword matches. -/
def categorize_book (title author : String) : String :=
  categorizeScan (strToLower (title ++ " " ++ author)) category_keywords

/-! ## First-occurrence deduplication

`df.drop_duplicates(subset=['book_id'])` keeps the first row for each key
and preserves row order; the same first-seen discipline underlies
`collections.Counter` iteration order (dict insertion order).  `seen` is
the accumulator of keys already emitted. -/

def dedupByKeyAux {α β : Type} [DecidableEq β] (key : α → β) (seen : List β) :
    List α → List α
  | [] => []
  | a :: as =>
    if key a ∈ seen then dedupByKeyAux key seen as
    else a :: dedupByKeyAux key (key a :: seen) as

/-- Keep the first element for each key value, in first-occurrence order. -/
def dedupByKey {α β : Type} [DecidableEq β] (key : α → β) (l : List α) : List α :=
  dedupByKeyAux key [] l

/-! ## Reading-pattern aggregator (`analyze_reading_patterns`) -/

/-- One parsed TSV row (generate_mypage.py lines 74-75), after
`pd.to_datetime` has split the checkout date into year and month.  The
columns not read by the analysis (`return_date`, `location`,
`classification`) are carried as raw strings. -/
structure CheckoutRow where
  rowId : String
  book_id : String
  checkoutYear : Int
  checkoutMonth : Nat
  return_date : String
  location : String
  classification : String
  title_author : String
deriving Repr, DecidableEq

/-- `df.drop_duplicates(subset=['book_id'])`. -/
def dedupByBookId (rows : List CheckoutRow) : List CheckoutRow :=
  dedupByKey (fun r => r.book_id) rows

/-- Ascending insertion for the month histogram (pandas `groupby` sorts its
keys). -/
def insertAsc (x : Nat) : List Nat → List Nat
  | [] => [x]
  | y :: ys => if x ≤ y then x :: y :: ys else y :: insertAsc x ys

/-- Sort ascending. -/
def sortAsc (l : List Nat) : List Nat :=
  l.foldr insertAsc []

/-- Month → row count over the current-year rows
(`df[df['year'] == current_year].groupby('month').size().to_dict()`). -/
def monthlyStats (currentYear : Int) (rows : List CheckoutRow) : List (Nat × Nat) :=
  let thisYear := rows.filter (fun r => r.checkoutYear == currentYear)
  (sortAsc (dedupByKey id (thisYear.map (fun r => r.checkoutMonth)))).map
    (fun m => (m, (thisYear.filter (fun r => r.checkoutMonth == m)).length))

/-- Result record of `analyze_reading_patterns` (generate_mypage.py lines
139-144). -/
structure ReadingStats where
  total_books : Nat
  this_year_books : Nat
  monthly_stats : List (Nat × Nat)
  unique_books : List CheckoutRow
deriving Repr, DecidableEq

/-- `analyze_reading_patterns` (generate_mypage.py lines 115-144): empty
input yields the empty dict (modelled as `none`); otherwise `total_books`
counts the rows surviving bookId deduplication, while `this_year_books`
counts ALL rows (before deduplication) whose checkout year is the current
calendar year. -/
def analyze_reading_patterns (currentYear : Int) (rows : List CheckoutRow) :
    Option ReadingStats :=
  match rows with
  | [] => none
  | _ :: _ => some
    { total_books := (dedupByBookId rows).length
      this_year_books := (rows.filter (fun r => r.checkoutYear == currentYear)).length
      monthly_stats := monthlyStats currentYear rows
      unique_books := dedupByBookId rows }

/-! ## Profile builder (`create_user_profile`) -/

/-- One book of the reading history (generate_mypage.py lines 165-172).
`progress` is absent except on the entry aliased by `currentReading`. -/
structure BookEntry where
  title : String
  author : String
  category : String
  year : String
  rating : Nat
  cover : String
  progress : Option ℚ
deriving Repr, DecidableEq

/-- `generate_cover_url` (generate_mypage.py lines 109-113). -/
def generate_cover_url (_title _author : String) : String :=
  "https://via.placeholder.com/240x360/f0f0f0/666?text=Book+Cover"

/-- Build one BookEntry from a deduplicated checkout row (generate_mypage.py
lines 160-173). -/
def mkBookEntry (r : CheckoutRow) : BookEntry :=
  { title := (extract_book_info r.title_author).1
    author := (extract_book_info r.title_author).2
    category := categorize_book (extract_book_info r.title_author).1
      (extract_book_info r.title_author).2
    year := toString r.checkoutYear
    rating := 4
    cover := generate_cover_url (extract_book_info r.title_author).1
      (extract_book_info r.title_author).2
    progress := none }

/-- The constant progress placeholder (`0.7` in the source). -/
def progressPlaceholder : ℚ := 7/10

/-- `current_reading['progress'] = 0.7`. -/
def setProgress (b : BookEntry) : BookEntry :=
  { b with progress := some progressPlaceholder }

/-- In the source, `current_reading` IS `reading_history[0]` (the same dict
object), so attaching `progress` to it also rewrites the first history
entry.  This models the list after that mutation. -/
def attachProgressHead : List BookEntry → List BookEntry
  | [] => []
  | b :: rest => setProgress b :: rest

/-- Category display metadata from the registry (`users.json`
`categories`). -/
structure CategoryInfo where
  name : String
  color : String
deriving Repr, DecidableEq

/-- The registry's category table, key → info, as an association list. -/
abbrev CategoryTable := List (String × CategoryInfo)

/-- Python `cat in self.users_data['categories']` /
`self.users_data['categories'][cat]`. -/
def lookupCat (table : CategoryTable) (key : String) : Option CategoryInfo :=
  (table.find? (fun p => p.1 == key)).map (fun p => p.2)

/-- `Counter` over the categories of the reading history: distinct
categories in first-occurrence order, each with its occurrence count. -/
def categoryEntries (books : List BookEntry) : List (String × Nat) :=
  (dedupByKey id (books.map (fun b => b.category))).map
    (fun c => (c, (books.filter (fun b => b.category == c)).length))

/-- Stable insertion keeping counts descending: `x` goes before the first
element whose count is ≤ its own. -/
def insertByCountDesc (x : String × Nat) : List (String × Nat) → List (String × Nat)
  | [] => [x]
  | y :: ys => if y.2 ≤ x.2 then x :: y :: ys else y :: insertByCountDesc x ys

/-- Stable sort by descending count, as `sorted(key=count, reverse=True)`
(the documented equivalent of `heapq.nlargest` inside
`Counter.most_common`). -/
def sortByCountDesc (l : List (String × Nat)) : List (String × Nat) :=
  l.foldr insertByCountDesc []

/-- `Counter.most_common(n)`. -/
def most_common (n : Nat) (l : List (String × Nat)) : List (String × Nat) :=
  (sortByCountDesc l).take n

/-- `specializations` (generate_mypage.py lines 176-181): up to 4 top
categories, mapped through the registry's category table; unmapped
categories are silently skipped. -/
def specializationsOf (table : CategoryTable) (books : List BookEntry) : List String :=
  (most_common 4 (categoryEntries books)).filterMap
    (fun p => (lookupCat table p.1).map (fun info => info.name))

/-- The user profile record (generate_mypage.py lines 189-209), with the
`stats` sub-dict flattened into fields. -/
structure UserProfile where
  id : String
  name : String
  nameJa : String
  position : String
  avatar : String
  email : String
  specializations : List String
  totalBooks : Nat
  thisYearBooks : Nat
  publications : Nat
  presentations : Nat
  datasets : Nat
  coderepos : Nat
  awards : Nat
  currentReading : Option BookEntry
  readingHistory : List BookEntry
deriving Repr, DecidableEq

/-- `create_user_profile` (generate_mypage.py lines 146-211).  `None` when
the analysis is empty (empty row list).  `reading_history` is built from
the deduplicated rows in order; `current_reading` is its first entry and,
through Python aliasing, both it and the first history entry carry the
constant progress placeholder. -/
def create_user_profile (table : CategoryTable) (currentYear : Int)
    (user_id name position avatar : String) (rows : List CheckoutRow) :
    Option UserProfile :=
  match analyze_reading_patterns currentYear rows with
  | none => none
  | some analysis =>
    let history0 := analysis.unique_books.map mkBookEntry
    let history := attachProgressHead history0
    some
      { id := user_id
        name := name
        nameJa := name
        position := position
        avatar := avatar
        email := user_id ++ "@example.com"
        specializations := specializationsOf table history0
        totalBooks := analysis.total_books
        thisYearBooks := analysis.this_year_books
        publications := 0
        presentations := if analysis.total_books > 10 then 1 else 0
        datasets := 0
        coderepos := if analysis.total_books > 5 then 1 else 0
        awards := 0
        currentReading := history.head?
        readingHistory := history }

/-! ## Displayed category percentages (`generate_mypage_html`) -/

/-- Python `round` on a float: round half to even.  Modelled on the exact
rational value. -/
def pyRound (q : ℚ) : ℤ :=
  if q - ⌊q⌋ < 1/2 then ⌊q⌋
  else if (1 : ℚ)/2 < q - ⌊q⌋ then ⌊q⌋ + 1
  else if 2 ∣ ⌊q⌋ then ⌊q⌋ else ⌊q⌋ + 1

/-- `category_percentages` (generate_mypage.py lines 216-224): for each
category of the reading history (`Counter` iteration order),
`round(count / total_books * 100)`. -/
def category_percentages (history : List BookEntry) : List (String × ℤ) :=
  (categoryEntries history).map
    (fun p => (p.1, pyRound ((p.2 : ℚ) / (history.length : ℚ) * 100)))

/-! ## Registry store (`load_users_data`, `add_user_to_database`) and
network (`update_network_data`, `create_user_connections`) -/

/-- One node of the network graph (generate_mypage.py lines 409-416).
`field` holds the joined top-2 specializations. -/
structure NetNode where
  id : String
  label : String
  name : String
  avatar : String
  group : String
  field : String
deriving Repr, DecidableEq

/-- One edge of the network graph (generate_mypage.py lines 455-460).  The
source's `from`/`to` keys are rendered `src`/`dst` (`from` is a Lean
keyword); `label` is the joined shared-field caption. -/
structure NetEdge where
  src : String
  dst : String
  label : String
  strength : Nat
deriving Repr, DecidableEq

/-- The `network` section of the registry. -/
structure NetworkGraph where
  nodes : List NetNode
  edges : List NetEdge
deriving Repr, DecidableEq

/-- The persisted registry document `users.json`.  `network` is absent
(`none`) until `update_network_data` first creates it. -/
structure UsersData where
  users : List UserProfile
  categories : CategoryTable
  network : Option NetworkGraph
deriving Repr, DecidableEq

/-- Outcome of opening the registry file: missing, or present with raw
content `s`. -/
inductive ReadResult where
  | notFound
  | content (s : String)

/-- `load_users_data` (generate_mypage.py lines 45-51): only
`FileNotFoundError` is caught and bootstraps the empty document
`{users: [], categories: {}}`; the outcome of `json.load` on present
content — success or a decode error — propagates unchanged.  `parse`
stands for `json.load` on the file's content. -/
def load_users_data (parse : String → Except String UsersData) :
    ReadResult → Except String UsersData
  | .notFound => .ok { users := [], categories := [], network := none }
  | .content s => parse s

/-- Replace the first list entry whose id matches (the indexed-update loop
of `add_user_to_database`, which breaks after the first hit). -/
def replaceUserById (p : UserProfile) : List UserProfile → List UserProfile
  | [] => []
  | u :: us => if u.id = p.id then p :: us else u :: replaceUserById p us

/-- The `users` list update of `add_user_to_database` (generate_mypage.py
lines 378-392): append when the id is new, else replace in place. -/
def add_user_to_database (p : UserProfile) (users : List UserProfile) :
    List UserProfile :=
  if users.any (fun u => u.id == p.id) then replaceUserById p users
  else users ++ [p]

/-- Node built from a profile (generate_mypage.py lines 409-416). -/
def mkNode (p : UserProfile) : NetNode :=
  { id := p.id
    label := p.name
    name := p.name
    avatar := p.avatar
    group := "student"
    field := if p.specializations = [] then "その他"
             else joinSep (", ") (p.specializations.take 2) }

/-- Replace the first node whose id matches. -/
def replaceNodeById (n : NetNode) : List NetNode → List NetNode
  | [] => []
  | m :: ms => if m.id = n.id then n :: ms else m :: replaceNodeById n ms

/-- The node upsert of `update_network_data` (generate_mypage.py lines
406-427). -/
def upsertNode (n : NetNode) (nodes : List NetNode) : List NetNode :=
  if nodes.any (fun m => m.id == n.id) then replaceNodeById n nodes
  else nodes ++ [n]

/-- Python `set(a).intersection(set(b))`, as the distinct elements of `a`
that also occur in `b`. -/
def sharedSpecs (a b : List String) : List String :=
  (dedupByKey id a).filter (fun x => b.contains x)

/-- The loop body of `create_user_connections` for one other user `o`:
if the specialization intersection is non-empty and neither orientation of
the pair is in the edge-list snapshot `existing`, the new edge; else
nothing. -/
def connectionCandidate (p : UserProfile) (existing : List (String × String))
    (o : UserProfile) : Option NetEdge :=
  if sharedSpecs p.specializations o.specializations ≠ [] ∧
      (p.id, o.id) ∉ existing ∧ (o.id, p.id) ∉ existing then
    some { src := p.id, dst := o.id,
           label := "共通分野: " ++
             joinSep (", ") ((sharedSpecs p.specializations o.specializations).take 2),
           strength := (sharedSpecs p.specializations o.specializations).length }
  else none

/-- `create_user_connections` (generate_mypage.py lines 432-462): for every
other user, if the specialization intersection is non-empty and neither
orientation of the pair is already present in the edge list snapshot
(taken once, before the loop), append a new edge whose strength is the
intersection's size. -/
def create_user_connections (p : UserProfile) (users : List UserProfile)
    (edges : List NetEdge) : List NetEdge :=
  edges ++ (users.filter (fun o => o.id != p.id)).filterMap
    (connectionCandidate p (edges.map (fun e => (e.src, e.dst))))

/-- `update_network_data` (generate_mypage.py lines 397-430): create the
network section if missing, upsert the node, then run edge inference
against the current `users` list. -/
def update_network_data (p : UserProfile) (d : UsersData) : UsersData :=
  let g := d.network.getD { nodes := [], edges := [] }
  { d with network := some ({ nodes := upsertNode (mkNode p) g.nodes
                              edges := create_user_connections p d.users g.edges }) }

/-- `add_user_to_database` followed by its trailing `update_network_data`
call (generate_mypage.py lines 378-395): upsert the profile, then refresh
the network. -/
def addUserFull (d : UsersData) (p : UserProfile) : UsersData :=
  update_network_data p { d with users := add_user_to_database p d.users }

/-- A sequence of profile generations run against an initially empty
registry (each `process_tsv_file` run ends in `add_user_to_database`). -/
def runUpserts (ps : List UserProfile) : UsersData :=
  ps.foldl addUserFull { users := [], categories := [], network := none }

/-- Each upserted profile of a sequence carries the same specializations as
every other upsert of the same id. -/
abbrev specConsistent (ps : List UserProfile) : Prop :=
  ∀ p ∈ ps, ∀ q ∈ ps, p.id = q.id → p.specializations = q.specializations

/-- The edge list of the registry's network section (empty when the section
has not been created yet). -/
def edgesOf (d : UsersData) : List NetEdge :=
  (d.network.getD { nodes := [], edges := [] }).edges

/-- Two edges connect the same unordered pair of users. -/
def samePair (e₁ e₂ : NetEdge) : Prop :=
  (e₁.src = e₂.src ∧ e₁.dst = e₂.dst) ∨ (e₁.src = e₂.dst ∧ e₁.dst = e₂.src)

/-- The edge connects the unordered pair `{a, b}`. -/
def pairMatches (a b : String) (e : NetEdge) : Bool :=
  (e.src == a && e.dst == b) || (e.src == b && e.dst == a)

/-- The registry's users carry pairwise-distinct ids. -/
def usersNodup (d : UsersData) : Prop :=
  d.users.Pairwise (fun u v => u.id ≠ v.id)

/-- Every edge links two distinct current users who share a specialization,
and its strength is the size of their intersection. -/
def edgeSound (d : UsersData) : Prop :=
  ∀ e ∈ edgesOf d, ∃ u ∈ d.users, ∃ v ∈ d.users,
    e.src = u.id ∧ e.dst = v.id ∧ u.id ≠ v.id ∧
    sharedSpecs u.specializations v.specializations ≠ [] ∧
    e.strength = (sharedSpecs u.specializations v.specializations).length

/-- Every pair of distinct current users sharing a specialization has some
edge. -/
def edgeComplete (d : UsersData) : Prop :=
  ∀ u ∈ d.users, ∀ v ∈ d.users, u.id ≠ v.id →
    sharedSpecs u.specializations v.specializations ≠ [] →
    ∃ e ∈ edgesOf d, pairMatches u.id v.id e = true

/-- No two edges link the same unordered pair. -/
def edgeNodup (d : UsersData) : Prop :=
  (edgesOf d).Pairwise (fun e₁ e₂ => ¬ samePair e₁ e₂)

/-- The registry invariant maintained by `addUserFull` under consistent
specializations. -/
def RegInv (d : UsersData) : Prop :=
  usersNodup d ∧ edgeSound d ∧ edgeComplete d ∧ edgeNodup d

/-! ## Concrete fixtures for witnesses and counterexamples -/

/-- An inert profile, used only as the `Option.getD` default. -/
def defaultProfile : UserProfile :=
  { id := "", name := "", nameJa := "", position := "", avatar := "", email := "",
    specializations := [], totalBooks := 0, thisYearBooks := 0, publications := 0,
    presentations := 0, datasets := 0, coderepos := 0, awards := 0,
    currentReading := none, readingHistory := [] }

/-- A checkout row fixture. -/
def trow (i b : String) (y : Int) (m : Nat) (ta : String) : CheckoutRow :=
  { rowId := i, book_id := b, checkoutYear := y, checkoutMonth := m,
    return_date := "", location := "", classification := "", title_author := ta }

/-- The same book checked out twice in the current year. -/
def rows2 : List CheckoutRow :=
  [trow ("1") ("b1") 2025 4 ("制御の本 / 著者A"),
   trow ("2") ("b1") 2025 5 ("制御の本 / 著者A")]

/-- A small category table fixture. -/
def ttable : CategoryTable :=
  [("control-theory", { name := "制御理論", color := "#4a90d9" }),
   ("numerical-weather", { name := "数値予報", color := "#d94a4a" })]

/-- The profile generated from `rows2` (used to name the concrete output). -/
def tprofile : UserProfile :=
  (create_user_profile ttable 2025 ("u1") ("U") ("pos") ("av") rows2).getD defaultProfile

/-- The analysis of `rows2` (used to name the concrete output). -/
def tstats : ReadingStats :=
  (analyze_reading_patterns 2025 rows2).getD
    { total_books := 0, this_year_books := 0, monthly_stats := [], unique_books := [] }

/-- A profile fixture with given id and specializations. -/
def tp (i : String) (specs : List String) : UserProfile :=
  { id := i, name := i, nameJa := i, position := "", avatar := "", email := "",
    specializations := specs, totalBooks := 0, thisYearBooks := 0, publications := 0,
    presentations := 0, datasets := 0, coderepos := 0, awards := 0,
    currentReading := none, readingHistory := [] }

/-- A book fixture with a given category. -/
def tbook (c : String) : BookEntry :=
  { title := "t", author := "a", category := c, year := "2025", rating := 4,
    cover := "", progress := none }

/-- Six books over four categories with counts 1,1,1,3: the rounded
percentages are 17, 17, 17 and 50, summing to 101. -/
def hist6 : List BookEntry :=
  [tbook ("m1"), tbook ("m2"), tbook ("m3"), tbook ("m4"), tbook ("m4"), tbook ("m4")]

/-- A stand-in for `json.load` failing on malformed content. -/
def parseAlwaysFails (_s : String) : Except String UsersData :=
  .error "Expecting value: line 1 column 1 (char 0)"

/-! ## Lemmas about first-occurrence deduplication -/

section DedupLemmas

variable {α β : Type} [DecidableEq β] (key : α → β)

theorem dedupByKeyAux_sublist (seen : List β) (l : List α) :
    List.Sublist (dedupByKeyAux key seen l) l := by
  induction l generalizing seen with
  | nil => simp [dedupByKeyAux]
  | cons a as ih =>
    simp only [dedupByKeyAux]
    by_cases h : key a ∈ seen
    · simp only [if_pos h]
      exact (ih seen).cons a
    · simp only [if_neg h]
      exact (ih (key a :: seen)).cons₂ a

theorem mem_of_mem_dedupByKeyAux {seen : List β} {l : List α} {x : α}
    (h : x ∈ dedupByKeyAux key seen l) : x ∈ l :=
  (dedupByKeyAux_sublist key seen l).mem h

theorem key_notin_seen_of_mem_dedupByKeyAux {seen : List β} {l : List α} {x : α}
    (h : x ∈ dedupByKeyAux key seen l) : key x ∉ seen := by
  induction l generalizing seen with
  | nil => simp [dedupByKeyAux] at h
  | cons a as ih =>
    simp only [dedupByKeyAux] at h
    by_cases ha : key a ∈ seen
    · exact ih (by simpa [if_pos ha] using h)
    · rcases (by simpa [if_neg ha] using h : x = a ∨ x ∈ dedupByKeyAux key (key a :: seen) as)
        with rfl | hx
      · exact ha
      · have := ih hx
        intro hc
        exact this (List.mem_cons_of_mem _ hc)

theorem dedupByKeyAux_pairwise (seen : List β) (l : List α) :
    (dedupByKeyAux key seen l).Pairwise (fun a b => key a ≠ key b) := by
  induction l generalizing seen with
  | nil => simp [dedupByKeyAux]
  | cons a as ih =>
    simp only [dedupByKeyAux]
    by_cases ha : key a ∈ seen
    · simpa [if_pos ha] using ih seen
    · simp only [if_neg ha, List.pairwise_cons]
      refine ⟨fun b hb => ?_, ih (key a :: seen)⟩
      have := key_notin_seen_of_mem_dedupByKeyAux key hb
      intro hc
      exact this (by simp [hc])

theorem dedupByKeyAux_covers : ∀ {l : List α} {x : α}, x ∈ l → ∀ (seen : List β),
    key x ∈ seen ∨ ∃ y ∈ dedupByKeyAux key seen l, key y = key x := by
  intro l
  induction l with
  | nil => intro x hx; simp at hx
  | cons a as ih =>
    intro x hx seen
    rcases List.mem_cons.mp hx with rfl | hx2
    · by_cases ha : key x ∈ seen
      · exact Or.inl ha
      · exact Or.inr ⟨x, by simp [dedupByKeyAux, if_neg ha], rfl⟩
    · by_cases ha : key a ∈ seen
      · simpa [dedupByKeyAux, if_pos ha] using ih hx2 seen
      · rcases ih hx2 (key a :: seen) with h | ⟨y, hy, hky⟩
        · rcases List.mem_cons.mp h with h | h
          · exact Or.inr ⟨a, by simp [dedupByKeyAux, if_neg ha], h.symm⟩
          · exact Or.inl h
        · exact Or.inr ⟨y, by simp [dedupByKeyAux, if_neg ha, hy], hky⟩

theorem dedupByKeyAux_find? (seen : List β) (l : List α) (b : β) (hb : b ∉ seen) :
    (dedupByKeyAux key seen l).find? (fun x => key x == b) =
      l.find? (fun x => key x == b) := by
  induction l generalizing seen with
  | nil => simp [dedupByKeyAux]
  | cons a as ih =>
    simp only [dedupByKeyAux]
    by_cases ha : key a ∈ seen
    · have hne : (key a == b) = false := by
        simp only [beq_eq_false_iff_ne]
        intro hc
        exact hb (hc ▸ ha)
      simp only [if_pos ha, List.find?_cons, hne]
      exact ih seen hb
    · by_cases hab : key a = b
      · subst hab
        simp [if_neg ha, List.find?_cons]
      · have hne : (key a == b) = false := by simpa using hab
        simp only [if_neg ha, List.find?_cons, hne]
        refine ih (key a :: seen) ?_
        intro hc
        rcases List.mem_cons.mp hc with h | h
        · exact hab h.symm
        · exact hb h

theorem dedupByKeyAux_map_key (seen : List β) (l : List α) :
    (dedupByKeyAux key seen l).map key = dedupByKeyAux id seen (l.map key) := by
  induction l generalizing seen with
  | nil => simp [dedupByKeyAux]
  | cons a as ih =>
    simp only [dedupByKeyAux, List.map_cons, id]
    by_cases ha : key a ∈ seen
    · simp only [if_pos ha]
      exact ih seen
    · simp only [if_neg ha, List.map_cons]
      rw [ih (key a :: seen)]

theorem dedupByKey_sublist (l : List α) : List.Sublist (dedupByKey key l) l :=
  dedupByKeyAux_sublist key [] l

theorem dedupByKey_pairwise (l : List α) :
    (dedupByKey key l).Pairwise (fun a b => key a ≠ key b) :=
  dedupByKeyAux_pairwise key [] l

theorem dedupByKey_find? (l : List α) (b : β) :
    (dedupByKey key l).find? (fun x => key x == b) = l.find? (fun x => key x == b) :=
  dedupByKeyAux_find? key [] l b (by simp)

theorem dedupByKey_map_key (l : List α) :
    (dedupByKey key l).map key = dedupByKey id (l.map key) :=
  dedupByKeyAux_map_key key [] l

theorem mem_dedupByKey_id {l : List β} {x : β} : x ∈ dedupByKey id l ↔ x ∈ l := by
  constructor
  · exact fun h => mem_of_mem_dedupByKeyAux id h
  · intro h
    rcases dedupByKeyAux_covers id h [] with hc | ⟨y, hy, hky⟩
    · simp at hc
    · exact (show y = x from hky) ▸ hy

theorem dedupByKey_id_nodup (l : List β) : (dedupByKey id l).Nodup := by
  have := dedupByKey_pairwise id l
  simpa [List.Nodup] using this

theorem dedupByKey_id_toFinset (l : List β) : (dedupByKey id l).toFinset = l.toFinset := by
  ext x
  simp [List.mem_toFinset, mem_dedupByKey_id]

theorem length_dedupByKey_id (l : List β) : (dedupByKey id l).length = l.toFinset.card := by
  rw [← dedupByKey_id_toFinset, List.toFinset_card_of_nodup (dedupByKey_id_nodup l)]

theorem length_dedupByKey (l : List α) :
    (dedupByKey key l).length = (l.map key).toFinset.card := by
  have h := congrArg List.length (dedupByKey_map_key key l)
  simpa [length_dedupByKey_id] using h

end DedupLemmas

/-! ## C2: `extract_book_info` -/

theorem splitTAAux_ne_nil (cur l : List Char) : splitTAAux cur l ≠ [] := by
  induction cur, l using splitTAAux.induct with
  | case1 cur => simp [splitTAAux]
  | case2 cur c => simp [splitTAAux]
  | case3 cur c d => simp [splitTAAux]
  | case4 cur c d e cs hcond ih =>
    simp [splitTAAux, if_pos hcond]
  | case5 cur c d e cs hcond ih =>
    simpa [splitTAAux, if_neg hcond] using ih

/-- C2 (amended): the title is the stripped first `" / "` segment truncated
at the first semicolon; the author is the stripped SECOND segment only
(later segments are discarded), or the sentinel `"不明"` (the spec's
"unknown") when there is a single segment.  The spec's own examples
follow. -/
theorem extract_book_info_spec :
    (∀ s a, splitTA s = [a] →
      extract_book_info s = (truncAtSemicolon (stripStr a), unknownAuthor)) ∧
    (∀ s a b rest, splitTA s = a :: b :: rest →
      extract_book_info s = (truncAtSemicolon (stripStr a), stripStr b)) ∧
    extract_book_info ("A / B") = ("A", "B") ∧
    extract_book_info ("A") = ("A", unknownAuthor) ∧
    extract_book_info ("A; extra / B") = ("A", "B") := by
  refine ⟨?_, ?_, by decide, by decide, by decide⟩
  · intro s a h
    simp [extract_book_info, h]
  · intro s a b rest h
    simp [extract_book_info, h]

/-- C2 counterexample: on `"A / B / C"` the author is just the second
segment `"B"`, not the joined remainder `"B / C"` that the claim
predicts. -/
theorem extract_book_info_not_joined_remainder :
    extract_book_info ("A / B / C") = ("A", "B") ∧ ("B" : String) ≠ "B / C" :=
  ⟨by decide, by decide⟩

theorem extract_book_info_spec_witness :
    splitTA ("X / Y / Z") = ["X", "Y", "Z"] ∧
    extract_book_info ("X / Y / Z") = (truncAtSemicolon (stripStr ("X")), stripStr ("Y")) :=
  ⟨by decide, extract_book_info_spec.2.1 _ ("X") ("Y") ["Z"] (by decide)⟩

/-! ## C6: `categorize_book` -/

theorem categorizeScan_all_miss (text : String) :
    ∀ tbl, (∀ e ∈ tbl, kwHit text e = false) → categorizeScan text tbl = "other" := by
  intro tbl
  induction tbl with
  | nil => intro; rfl
  | cons e rest ih =>
    intro h
    have he : kwHit text e = false := h e (by simp)
    simp only [categorizeScan, he, Bool.false_eq_true, if_false]
    exact ih (fun x hx => h x (by simp [hx]))

theorem categorizeScan_first_hit (text : String) :
    ∀ (tbl : List (String × List String)) (i : Nat) (hi : i < tbl.length),
      kwHit text (tbl.get ⟨i, hi⟩) = true →
      (∀ j (hj : j < i), kwHit text (tbl.get ⟨j, Nat.lt_trans hj hi⟩) = false) →
      categorizeScan text tbl = (tbl.get ⟨i, hi⟩).1 := by
  intro tbl
  induction tbl with
  | nil => intro i hi; simp at hi
  | cons e rest ih =>
    intro i hi hhit hbefore
    cases i with
    | zero => simp only [List.get] at hhit ⊢; simp [categorizeScan, hhit]
    | succ i =>
      have h0 : kwHit text e = false := by
        have := hbefore 0 (Nat.succ_pos i)
        simpa [List.get] using this
      simp only [List.get] at hhit ⊢
      simp only [categorizeScan, h0, Bool.false_eq_true, if_false]
      exact ih i (Nat.lt_of_succ_lt_succ hi) hhit
        (fun j hj => by
          have := hbefore (j + 1) (Nat.succ_lt_succ hj)
          simpa [List.get] using this)

/-- C6: `categorize_book` lower-cases `"{title} {author}"` and returns the
category of the first table entry (in declaration order) with a matching
lower-cased keyword substring, `"other"` when no keyword matches; on text
matching both `"制御"` (control-theory, entry 0) and `"機械学習"`
(machine-learning, entry 8), the earlier-declared category wins. -/
theorem categorize_book_spec :
    (∀ title author,
      (∀ e ∈ category_keywords, kwHit (strToLower (title ++ " " ++ author)) e = false) →
      categorize_book title author = "other") ∧
    (∀ title author (i : Nat) (hi : i < category_keywords.length),
      kwHit (strToLower (title ++ " " ++ author)) (category_keywords.get ⟨i, hi⟩) = true →
      (∀ j (hj : j < i), kwHit (strToLower (title ++ " " ++ author))
        (category_keywords.get ⟨j, Nat.lt_trans hj hi⟩) = false) →
      categorize_book title author = (category_keywords.get ⟨i, hi⟩).1) ∧
    categorize_book ("機械学習と制御") ("不明") = "control-theory" ∧
    categorize_book ("機械学習の本") ("不明") = "machine-learning" ∧
    categorize_book ("全く無関係な本") ("不明") = "other" := by
  refine ⟨?_, ?_, by decide, by decide, by decide⟩
  · intro title author h
    exact categorizeScan_all_miss _ _ h
  · intro title author i hi hhit hbefore
    exact categorizeScan_first_hit _ _ i hi hhit hbefore

theorem categorize_book_spec_witness :
    kwHit (strToLower ("数値予報の本" ++ " " ++ "不明"))
      (category_keywords.get ⟨4, by decide⟩) = true ∧
    categorize_book ("数値予報の本") ("不明") = (category_keywords.get ⟨4, by decide⟩).1 :=
  ⟨by decide, categorize_book_spec.2.1 _ _ 4 (by decide) (by decide) (by decide)⟩

/-! ## C9: `load_users_data` -/

/-- C9: a missing registry file bootstraps the empty document
`{users: [], categories: {}}` (no network section yet), while the outcome
of `json.load` on a present file — in particular a decode error on
malformed JSON — propagates unchanged instead of being replaced by the
empty document. -/
theorem load_users_data_spec :
    (∀ parse, load_users_data parse ReadResult.notFound =
      Except.ok { users := [], categories := [], network := none }) ∧
    (∀ parse s e, parse s = Except.error e →
      load_users_data parse (ReadResult.content s) = Except.error e) ∧
    (∀ parse s d, parse s = Except.ok d →
      load_users_data parse (ReadResult.content s) = Except.ok d) :=
  ⟨fun _ => rfl, fun _ _ _ h => h, fun _ _ _ h => h⟩

theorem load_users_data_spec_witness :
    parseAlwaysFails ("not json") = Except.error ("Expecting value: line 1 column 1 (char 0)") ∧
    load_users_data parseAlwaysFails (ReadResult.content ("not json")) =
      Except.error ("Expecting value: line 1 column 1 (char 0)") :=
  ⟨rfl, load_users_data_spec.2.1 parseAlwaysFails _ _ rfl⟩

/-! ## C8: `add_user_to_database` on the users list -/

theorem replaceUserById_eq_set (p : UserProfile) :
    ∀ (users : List UserProfile) (k : Nat) (hk : k < users.length),
      (users.get ⟨k, hk⟩).id = p.id →
      (∀ j (hj : j < k), (users.get ⟨j, Nat.lt_trans hj hk⟩).id ≠ p.id) →
      replaceUserById p users = users.set k p := by
  intro users
  induction users with
  | nil => intro k hk; simp at hk
  | cons u us ih =>
    intro k hk hid hbefore
    cases k with
    | zero =>
      simp only [List.get] at hid
      simp [replaceUserById, hid]
    | succ k =>
      have h0 : u.id ≠ p.id := by
        have := hbefore 0 (Nat.succ_pos k)
        simpa [List.get] using this
      simp only [List.get] at hid
      simp only [replaceUserById, if_neg h0, List.set]
      rw [ih k (Nat.lt_of_succ_lt_succ hk) hid
        (fun j hj => by
          have := hbefore (j + 1) (Nat.succ_lt_succ hj)
          simpa [List.get] using this)]

/-- C8: upserting a profile whose id is absent appends it (length + 1);
upserting a profile whose id is present at (first) position `k` rewrites
exactly that position (`List.set`), leaving the length and every other
entry unchanged. -/
theorem add_user_to_database_spec :
    ∀ (p : UserProfile) (users : List UserProfile),
      ((∀ u ∈ users, u.id ≠ p.id) →
        add_user_to_database p users = users ++ [p] ∧
        (add_user_to_database p users).length = users.length + 1) ∧
      (∀ (k : Nat) (hk : k < users.length), (users.get ⟨k, hk⟩).id = p.id →
        (∀ j (hj : j < k), (users.get ⟨j, Nat.lt_trans hj hk⟩).id ≠ p.id) →
        add_user_to_database p users = users.set k p ∧
        (add_user_to_database p users).length = users.length ∧
        ∀ (j : Nat) (hj : j < users.length), j ≠ k →
          (users.set k p).get ⟨j, by rw [List.length_set]; exact hj⟩ =
            users.get ⟨j, hj⟩) := by
  intro p users
  constructor
  · intro h
    have hany : users.any (fun u => u.id == p.id) = false := by
      simp only [List.any_eq_false]
      intro u hu
      simpa using h u hu
    constructor
    · simp [add_user_to_database, hany]
    · simp [add_user_to_database, hany]
  · intro k hk hid hbefore
    have hmem : users.get ⟨k, hk⟩ ∈ users := List.get_mem users k hk
    have hany : users.any (fun u => u.id == p.id) = true := by
      simp only [List.any_eq_true]
      exact ⟨users.get ⟨k, hk⟩, hmem, by simpa using hid⟩
    have hrepl := replaceUserById_eq_set p users k hk hid hbefore
    refine ⟨by simp [add_user_to_database, hany, hrepl], ?_, ?_⟩
    · simp [add_user_to_database, hany, hrepl]
    · intro j hj hne
      simp only [List.get_eq_getElem]
      exact List.getElem_set_ne (fun hc => hne hc.symm)
        (by rw [List.length_set]; exact hj)

theorem add_user_to_database_spec_witness :
    ((∀ u ∈ [tp ("a") ["X"]], u.id ≠ (tp ("c") []).id) ∧
      add_user_to_database (tp ("c") []) [tp ("a") ["X"]] = [tp ("a") ["X"]] ++ [tp ("c") []]) ∧
    ((List.get [tp ("a") ["X"], tp ("b") ["Y"]] (Fin.mk 1 (by decide))).id =
        (tp ("b") ["Z"]).id ∧
      add_user_to_database (tp ("b") ["Z"]) [tp ("a") ["X"], tp ("b") ["Y"]] =
        [tp ("a") ["X"], tp ("b") ["Y"]].set 1 (tp ("b") ["Z"])) :=
  ⟨⟨by decide, ((add_user_to_database_spec _ _).1 (by decide)).1⟩,
   ⟨by decide, ((add_user_to_database_spec _ _).2 1 (by decide) (by decide)
      (fun j hj => by
        have hj0 : j = 0 := by omega
        subst hj0
        show (tp ("a") ["X"]).id ≠ (tp ("b") ["Z"]).id
        decide)).1⟩⟩

/-! ## C1: the aggregator's statistics -/

/-- C1 (amended): `totalBooks` is the number of distinct `bookId` values;
`thisYearBooks` counts ALL checkout rows whose year is the current year,
WITHOUT deduplication by `bookId` (the source filters `df`, not
`unique_books`). -/
theorem analyze_reading_patterns_stats (y : Int) (rows : List CheckoutRow)
    (st : ReadingStats) (h : analyze_reading_patterns y rows = some st) :
    st.total_books = (rows.map (fun r => r.book_id)).toFinset.card ∧
    st.this_year_books = (rows.filter (fun r => r.checkoutYear == y)).length := by
  cases rows with
  | nil => simp [analyze_reading_patterns] at h
  | cons r rs =>
    simp only [analyze_reading_patterns] at h
    injection h with h
    subst h
    exact ⟨length_dedupByKey _ _, rfl⟩

/-- C1 counterexample: the same book checked out twice in the current year
gives `thisYearBooks = 2`, while the number of unique current-year books
(first occurrence kept) is 1. -/
theorem analyze_this_year_not_deduplicated :
    (analyze_reading_patterns 2025 rows2).map (fun s => s.this_year_books) = some 2 ∧
    (analyze_reading_patterns 2025 rows2).map (fun s => s.total_books) = some 1 ∧
    ((dedupByBookId rows2).filter (fun r => r.checkoutYear == 2025)).length = 1 :=
  ⟨by decide, by decide, by decide⟩

theorem analyze_reading_patterns_stats_witness :
    analyze_reading_patterns 2025 rows2 = some tstats ∧
    tstats.total_books = (rows2.map (fun r => r.book_id)).toFinset.card :=
  ⟨rfl, (analyze_reading_patterns_stats 2025 rows2 tstats rfl).1⟩

/-! ## C7: deduplication and history order -/

/-- C7: the deduplicated row list has pairwise-distinct `bookId`s, is a
subsequence of the original rows (so first-occurrence row order is kept),
its entry for each `bookId` is the FIRST row carrying that id, and the
profile's reading history is exactly that list mapped to BookEntries (with
the progress placeholder attached to the head). -/
theorem create_user_profile_dedup (table : CategoryTable) (y : Int)
    (uid nm pos av : String) (rows : List CheckoutRow) (prof : UserProfile)
    (h : create_user_profile table y uid nm pos av rows = some prof) :
    List.Pairwise (fun r s => r.book_id ≠ s.book_id) (dedupByBookId rows) ∧
    List.Sublist (dedupByBookId rows) rows ∧
    (∀ b, (dedupByBookId rows).find? (fun r => r.book_id == b) =
      rows.find? (fun r => r.book_id == b)) ∧
    prof.readingHistory = attachProgressHead ((dedupByBookId rows).map mkBookEntry) := by
  refine ⟨dedupByKey_pairwise _ rows, dedupByKey_sublist _ rows,
    dedupByKey_find? _ rows, ?_⟩
  cases rows with
  | nil => simp [create_user_profile, analyze_reading_patterns] at h
  | cons r rs =>
    simp only [create_user_profile, analyze_reading_patterns] at h
    injection h with h
    subst h
    rfl

theorem create_user_profile_dedup_witness :
    create_user_profile ttable 2025 ("u1") ("U") ("pos") ("av") rows2 = some tprofile ∧
    tprofile.readingHistory = attachProgressHead ((dedupByBookId rows2).map mkBookEntry) :=
  ⟨rfl, (create_user_profile_dedup ttable 2025 ("u1") ("U") ("pos") ("av")
      rows2 tprofile rfl).2.2.2⟩

/-! ## C10: currentReading / history-head aliasing -/

/-- C10: for a profile built from a non-empty history, `currentReading` and
the first history entry are the same record; attaching the constant
progress placeholder to it makes the history head carry `progress` while
every later entry has none. -/
theorem create_user_profile_aliasing (table : CategoryTable) (y : Int)
    (uid nm pos av : String) (rows : List CheckoutRow) (prof : UserProfile)
    (h : create_user_profile table y uid nm pos av rows = some prof) :
    ∃ b t, prof.readingHistory = b :: t ∧ prof.currentReading = some b ∧
      b.progress = some progressPlaceholder ∧ ∀ e ∈ t, e.progress = none := by
  cases rows with
  | nil => simp [create_user_profile, analyze_reading_patterns] at h
  | cons r rs =>
    simp only [create_user_profile, analyze_reading_patterns] at h
    injection h with h
    subst h
    refine ⟨setProgress (mkBookEntry r),
      (dedupByKeyAux (fun x => x.book_id) [r.book_id] rs).map mkBookEntry,
      ?_, ?_, rfl, ?_⟩
    · simp [dedupByBookId, dedupByKey, dedupByKeyAux, attachProgressHead]
    · simp [dedupByBookId, dedupByKey, dedupByKeyAux, attachProgressHead]
    · intro e he
      rcases List.mem_map.mp he with ⟨r2, _, rfl⟩
      rfl

theorem create_user_profile_aliasing_witness :
    create_user_profile ttable 2025 ("u1") ("U") ("pos") ("av") rows2 = some tprofile ∧
    (∃ b t, tprofile.readingHistory = b :: t ∧ tprofile.currentReading = some b ∧
      b.progress = some progressPlaceholder ∧ ∀ e ∈ t, e.progress = none) :=
  ⟨rfl, create_user_profile_aliasing ttable 2025 ("u1") ("U") ("pos") ("av")
    rows2 tprofile rfl⟩

/-! ## C5: specializations ranking -/

theorem mem_insertByCountDesc {x z : String × Nat} :
    ∀ {l : List (String × Nat)}, z ∈ insertByCountDesc x l ↔ z = x ∨ z ∈ l := by
  intro l
  induction l with
  | nil => simp [insertByCountDesc]
  | cons y ys ih =>
    by_cases h : y.2 ≤ x.2
    · simp [insertByCountDesc, if_pos h]
    · simp only [insertByCountDesc, if_neg h, List.mem_cons, ih]
      tauto

theorem insertByCountDesc_pairwise (x : String × Nat) {l : List (String × Nat)}
    (h : l.Pairwise (fun a b => b.2 ≤ a.2)) :
    (insertByCountDesc x l).Pairwise (fun a b => b.2 ≤ a.2) := by
  induction l with
  | nil => simp [insertByCountDesc]
  | cons y ys ih =>
    rcases List.pairwise_cons.mp h with ⟨hy, hys⟩
    by_cases hc : y.2 ≤ x.2
    · simp only [insertByCountDesc, if_pos hc]
      refine List.Pairwise.cons (fun z hz => ?_) h
      rcases List.mem_cons.mp hz with rfl | hz
      · exact hc
      · exact le_trans (hy z hz) hc
    · simp only [insertByCountDesc, if_neg hc]
      refine List.Pairwise.cons (fun z hz => ?_) (ih hys)
      rcases mem_insertByCountDesc.mp hz with rfl | hz
      · exact le_of_lt (lt_of_not_le hc)
      · exact hy z hz

theorem sortByCountDesc_pairwise (l : List (String × Nat)) :
    (sortByCountDesc l).Pairwise (fun a b => b.2 ≤ a.2) := by
  induction l with
  | nil => simp [sortByCountDesc]
  | cons a as ih => exact insertByCountDesc_pairwise a ih

theorem insertByCountDesc_filter (x : String × Nat) (v : Nat) :
    ∀ (l : List (String × Nat)),
      (insertByCountDesc x l).filter (fun p => p.2 == v) =
        if x.2 = v then x :: l.filter (fun p => p.2 == v)
        else l.filter (fun p => p.2 == v) := by
  intro l
  induction l with
  | nil =>
    by_cases hv : x.2 = v <;> simp [insertByCountDesc, List.filter_cons, hv]
  | cons y ys ih =>
    by_cases hc : y.2 ≤ x.2
    · simp only [insertByCountDesc, if_pos hc, List.filter_cons]
      by_cases hv : x.2 = v
      · have hx : (x.2 == v) = true := by simpa using hv
        simp [hx, hv]
      · have hx : (x.2 == v) = false := by simpa using hv
        simp [hx, hv]
    · have hgt : x.2 < y.2 := lt_of_not_le hc
      simp only [insertByCountDesc, if_neg hc, List.filter_cons, ih]
      by_cases hv : x.2 = v
      · have hyv : (y.2 == v) = false := by
          simp only [beq_eq_false_iff_ne]
          omega
        simp [hyv, if_pos hv]
      · simp [if_neg hv]

theorem sortByCountDesc_stable (v : Nat) :
    ∀ (l : List (String × Nat)),
      (sortByCountDesc l).filter (fun p => p.2 == v) =
        l.filter (fun p => p.2 == v) := by
  intro l
  induction l with
  | nil => rfl
  | cons a as ih =>
    show (insertByCountDesc a (sortByCountDesc as)).filter _ = _
    rw [insertByCountDesc_filter, List.filter_cons]
    by_cases hv : a.2 = v
    · simp [hv, ih]
    · have : (a.2 == v) = false := by simpa using hv
      simp [if_neg hv, this, ih]

/-- C5: `specializations` is the top-4 category list mapped through the
registry's category table: at most 4 names; the ranked list is ordered by
descending occurrence count; the sort is stable, so equal counts keep
their first-encountered (Counter-insertion) order; each count is the
category's occurrence count over the BookEntry list; and the ranked keys
are the distinct categories in first-occurrence order.  Unmapped
categories are dropped by the `filterMap`, without error. -/
theorem specializations_spec (table : CategoryTable) (books : List BookEntry) :
    specializationsOf table books =
      (most_common 4 (categoryEntries books)).filterMap
        (fun p => (lookupCat table p.1).map (fun info => info.name)) ∧
    (specializationsOf table books).length ≤ 4 ∧
    (most_common 4 (categoryEntries books)).Pairwise (fun a b => b.2 ≤ a.2) ∧
    (∀ v, (sortByCountDesc (categoryEntries books)).filter (fun p => p.2 == v) =
      (categoryEntries books).filter (fun p => p.2 == v)) ∧
    (∀ p ∈ categoryEntries books,
      p.2 = (books.filter (fun b => b.category == p.1)).length) ∧
    (categoryEntries books).map (fun p => p.1) =
      dedupByKey id (books.map (fun b => b.category)) := by
  refine ⟨rfl, ?_, ?_, fun v => sortByCountDesc_stable v _, ?_, ?_⟩
  · calc (specializationsOf table books).length
        ≤ (most_common 4 (categoryEntries books)).length :=
          List.length_filterMap_le _ _
      _ ≤ 4 := by simp [most_common]
  · exact (sortByCountDesc_pairwise _).sublist
      (List.take_sublist 4 _)
  · intro p hp
    rcases List.mem_map.mp hp with ⟨c, _, rfl⟩
    rfl
  · simp [categoryEntries, List.map_map, Function.comp_def]

theorem specializations_spec_witness :
    (specializationsOf ttable hist6).length ≤ 4 :=
  (specializations_spec ttable hist6).2.1

/-! ## C4: displayed category percentages -/

section DedupCount

variable {α β : Type} [DecidableEq β] (key : α → β)

theorem dedupByKeyAux_congr_seen :
    ∀ (l : List α) (s₁ s₂ : List β), (∀ x, x ∈ s₁ ↔ x ∈ s₂) →
      dedupByKeyAux key s₁ l = dedupByKeyAux key s₂ l := by
  intro l
  induction l with
  | nil => intro s₁ s₂ h; rfl
  | cons a as ih =>
    intro s₁ s₂ h
    by_cases h1 : key a ∈ s₁
    · simp only [dedupByKeyAux, if_pos h1, if_pos ((h (key a)).mp h1)]
      exact ih s₁ s₂ h
    · have h2 : key a ∉ s₂ := fun hc => h1 ((h (key a)).mpr hc)
      simp only [dedupByKeyAux, if_neg h1, if_neg h2]
      rw [ih (key a :: s₁) (key a :: s₂) (fun x => by simp [h x])]

theorem dedupByKeyAux_seen_cons (b : β) :
    ∀ (l : List α) (s : List β),
      dedupByKeyAux key (b :: s) l =
        dedupByKeyAux key s (l.filter (fun x => !(key x == b))) := by
  intro l
  induction l with
  | nil => intro s; rfl
  | cons a as ih =>
    intro s
    by_cases hab : key a = b
    · have h1 : key a ∈ b :: s := by simp [hab]
      have h2 : (!(key a == b)) = false := by simp [hab]
      simp only [dedupByKeyAux, if_pos h1, List.filter_cons, h2, Bool.false_eq_true,
        if_false]
      exact ih s
    · have h2 : (!(key a == b)) = true := by simp [hab]
      by_cases has : key a ∈ s
      · have h1 : key a ∈ b :: s := List.mem_cons_of_mem _ has
        simp only [dedupByKeyAux, if_pos h1, List.filter_cons, h2, if_true, if_pos has]
        exact ih s
      · have h1 : key a ∉ b :: s := by simp [hab, has]
        simp only [dedupByKeyAux, if_neg h1, List.filter_cons, h2, if_true, if_neg has]
        rw [dedupByKeyAux_congr_seen key as (key a :: b :: s) (b :: key a :: s)
          (fun x => by simp; tauto)]
        rw [ih (key a :: s)]

theorem dedupByKey_id_cons (a : β) (l : List β) :
    dedupByKey id (a :: l) = a :: dedupByKey id (l.filter (fun x => !(x == a))) := by
  show dedupByKeyAux id [] (a :: l) =
    a :: dedupByKeyAux id [] (l.filter (fun x => !(x == a)))
  have h1 : id a ∉ ([] : List β) := List.not_mem_nil _
  simp only [dedupByKeyAux, if_neg h1]
  congr 1
  exact dedupByKeyAux_seen_cons id a l []

theorem sum_counts_bounded :
    ∀ (n : Nat) (l : List β), l.length ≤ n →
      ((dedupByKey id l).map (fun c => (l.filter (fun x => x == c)).length)).sum =
        l.length := by
  intro n
  induction n with
  | zero =>
    intro l h
    have : l = [] := List.eq_nil_of_length_eq_zero (Nat.le_zero.mp h)
    subst this
    rfl
  | succ n ih =>
    intro l hl
    cases l with
    | nil => rfl
    | cons a as =>
      rw [dedupByKey_id_cons]
      simp only [List.map_cons, List.sum_cons]
      have hmap : (dedupByKey id (as.filter (fun x => !(x == a)))).map
          (fun c => ((a :: as).filter (fun x => x == c)).length) =
        (dedupByKey id (as.filter (fun x => !(x == a)))).map
          (fun c => ((as.filter (fun x => !(x == a))).filter (fun x => x == c)).length) := by
        apply List.map_congr_left
        intro c hc
        have hca : c ≠ a := by
          have hm := mem_of_mem_dedupByKeyAux id hc
          have := (List.mem_filter.mp hm).2
          simpa using this
        have hac : (a == c) = false := by
          simp only [beq_eq_false_iff_ne]
          exact fun h => hca h.symm
        rw [List.filter_cons]
        simp only [hac, Bool.false_eq_true, if_false]
        rw [List.filter_filter]
        apply congrArg
        apply List.filter_congr
        intro x _
        by_cases hx : x = c
        · subst hx
          simp [hca]
        · simp [hx]
      rw [hmap, ih (as.filter (fun x => !(x == a)))
        (le_trans (List.length_filter_le _ _) (Nat.le_of_succ_le_succ hl))]
      rw [List.filter_cons]
      simp only [beq_self_eq_true, if_true, List.length_cons]
      have hsplit : as.length = (as.filter (fun x => x == a)).length +
          (as.filter (fun x => !(x == a))).length :=
        List.length_eq_length_filter_add _
      omega

theorem sum_counts (l : List β) :
    ((dedupByKey id l).map (fun c => (l.filter (fun x => x == c)).length)).sum =
      l.length :=
  sum_counts_bounded l.length l le_rfl

end DedupCount

theorem filter_map_length {α β : Type} [DecidableEq β] (f : α → β) (c : β) (l : List α) :
    ((l.map f).filter (fun x => x == c)).length =
      (l.filter (fun x => f x == c)).length := by
  induction l with
  | nil => rfl
  | cons a as ih =>
    simp only [List.map_cons, List.filter_cons]
    by_cases h : f a == c
    · simp [h, ih]
    · simp only [h]
      exact ih

theorem pyRound_near (q : ℚ) : |((pyRound q : ℤ) : ℚ) - q| ≤ 1/2 := by
  have h0 : ((⌊q⌋ : ℤ) : ℚ) ≤ q := Int.floor_le q
  have h1 : q < ⌊q⌋ + 1 := Int.lt_floor_add_one q
  unfold pyRound
  by_cases hc1 : q - ⌊q⌋ < 1/2
  · rw [if_pos hc1, abs_le]
    constructor <;> linarith
  · rw [if_neg hc1]
    by_cases hc2 : (1 : ℚ)/2 < q - ⌊q⌋
    · rw [if_pos hc2]
      push_cast
      rw [abs_le]
      constructor <;> linarith
    · rw [if_neg hc2]
      have heq : q - ⌊q⌋ = 1/2 := le_antisymm (not_lt.mp hc2) (not_lt.mp hc1)
      by_cases hd : 2 ∣ ⌊q⌋
      · rw [if_pos hd, abs_le]
        constructor <;> linarith
      · rw [if_neg hd]
        push_cast
        rw [abs_le]
        constructor <;> linarith

theorem roundSum_near (qs : List ℚ) :
    |(qs.map (fun q => ((pyRound q : ℤ) : ℚ))).sum - qs.sum| ≤ (qs.length : ℚ) / 2 := by
  induction qs with
  | nil => simp
  | cons q rest ih =>
    simp only [List.map_cons, List.sum_cons, List.length_cons]
    push_cast
    calc |(((pyRound q : ℤ) : ℚ) + (rest.map (fun x => ((pyRound x : ℤ) : ℚ))).sum) -
          (q + rest.sum)|
        = |(((pyRound q : ℤ) : ℚ) - q) +
            ((rest.map (fun x => ((pyRound x : ℤ) : ℚ))).sum - rest.sum)| := by
          rw [add_sub_add_comm]
      _ ≤ |((pyRound q : ℤ) : ℚ) - q| +
            |(rest.map (fun x => ((pyRound x : ℤ) : ℚ))).sum - rest.sum| := abs_add _ _
      _ ≤ 1/2 + (rest.length : ℚ) / 2 := add_le_add (pyRound_near q) ih
      _ = ((rest.length : ℚ) + 1) / 2 := by ring

theorem list_sum_map_mul_right {α : Type} (l : List α) (g : α → ℚ) (k : ℚ) :
    (l.map (fun x => g x * k)).sum = (l.map g).sum * k := by
  induction l with
  | nil => simp
  | cons a as ih => simp [ih, add_mul]

theorem list_sum_map_cast (l : List ℕ) :
    (l.map (Nat.cast : ℕ → ℚ)).sum = ((l.sum : ℕ) : ℚ) := by
  induction l with
  | nil => simp
  | cons a as ih =>
    simp only [List.map_cons, List.sum_cons, ih]
    push_cast
    ring

/-- C4 (amended): each displayed category percentage equals
`round(count/total*100)` (Python's round-half-to-even, taken on the exact
rational value), and the percentages sum to 100 up to rounding: the sum
lies within `c/2` of 100, where `c` is the number of displayed categories
(so it can exceed 100, but never by more than `c/2`). -/
theorem category_percentages_spec (history : List BookEntry) (hne : history ≠ []) :
    (∀ p ∈ category_percentages history,
      p.2 = pyRound (((history.filter (fun b => b.category == p.1)).length : ℚ) /
        (history.length : ℚ) * 100)) ∧
    |(((category_percentages history).map (fun p => (p.2 : ℚ))).sum - 100)| ≤
      ((category_percentages history).length : ℚ) / 2 := by
  constructor
  · intro p hp
    rcases List.mem_map.mp hp with ⟨e, he, rfl⟩
    rcases List.mem_map.mp he with ⟨c, _, rfl⟩
    rfl
  · set cats := dedupByKey id (history.map (fun b => b.category)) with hcats
    set total := history.length with htot
    have htne : (total : ℚ) ≠ 0 := by
      have : total ≠ 0 := by
        simpa [htot, List.length_eq_zero] using hne
      exact_mod_cast this
    have hmapped : (category_percentages history).map (fun p => (p.2 : ℚ)) =
        (cats.map (fun c => ((history.filter (fun b => b.category == c)).length : ℚ) /
          (total : ℚ) * 100)).map (fun q => ((pyRound q : ℤ) : ℚ)) := by
      simp [category_percentages, categoryEntries, List.map_map, Function.comp_def]
    have hlen : (category_percentages history).length = cats.length := by
      simp [category_percentages, categoryEntries]
    have hsum : (cats.map (fun c => ((history.filter (fun b => b.category == c)).length : ℚ) /
        (total : ℚ) * 100)).sum = 100 := by
      have step1 : (cats.map (fun c =>
          ((history.filter (fun b => b.category == c)).length : ℚ) /
            (total : ℚ) * 100)).sum =
          (cats.map (fun c =>
            ((history.filter (fun b => b.category == c)).length : ℚ))).sum *
            (100 / (total : ℚ)) := by
        rw [← list_sum_map_mul_right]
        apply congrArg
        apply List.map_congr_left
        intro c _
        field_simp
      have step2 : (cats.map (fun c =>
          ((history.filter (fun b => b.category == c)).length : ℚ))).sum =
          ((total : ℕ) : ℚ) := by
        have hcnt : cats.map (fun c =>
            ((history.filter (fun b => b.category == c)).length)) =
          cats.map (fun c =>
            (((history.map (fun b => b.category)).filter (fun x => x == c)).length)) := by
          apply List.map_congr_left
          intro c _
          rw [filter_map_length]
        have hnat : (cats.map (fun c =>
            ((history.filter (fun b => b.category == c)).length))).sum = total := by
          rw [hcnt, hcats]
          have := sum_counts (history.map (fun b => b.category))
          simpa [htot] using this
        have hcomp : cats.map (fun c =>
            ((history.filter (fun b => b.category == c)).length : ℚ)) =
          (cats.map (fun c => (history.filter (fun b => b.category == c)).length)).map
            (Nat.cast : ℕ → ℚ) := by
          rw [List.map_map]
          rfl
        rw [hcomp, list_sum_map_cast, hnat]
      rw [step1, step2]
      field_simp
    rw [hmapped, hlen]
    have := roundSum_near (cats.map (fun c =>
      ((history.filter (fun b => b.category == c)).length : ℚ) / (total : ℚ) * 100))
    rw [hsum] at this
    simpa using this

/-- C4 counterexample: six books over categories with counts 1,1,1,3 round
to 17+17+17+50 = 101, so the displayed percentages can exceed 100. -/
theorem category_percentages_sum_exceeds_100 :
    ((category_percentages hist6).map (fun p => p.2)).sum = 101 ∧
    ¬ ((category_percentages hist6).map (fun p => p.2)).sum ≤ 100 := by
  have h : categoryEntries hist6 = [("m1", 1), ("m2", 1), ("m3", 1), ("m4", 3)] := by
    decide
  have hl : hist6.length = 6 := by decide
  have hsum : ((category_percentages hist6).map (fun p => p.2)).sum = 101 := by
    simp only [category_percentages, h, hl, List.map_cons, List.map_nil, List.sum_cons,
      List.sum_nil]
    norm_num [pyRound, Int.floor_eq_iff]
  exact ⟨hsum, by rw [hsum]; decide⟩

theorem category_percentages_spec_witness :
    hist6 ≠ [] ∧
    |(((category_percentages hist6).map (fun p => (p.2 : ℚ))).sum - 100)| ≤
      ((category_percentages hist6).length : ℚ) / 2 :=
  ⟨by decide, (category_percentages_spec hist6 (by decide)).2⟩

/-! ## C3: network edge inference -/

theorem mem_sharedSpecs {a b : List String} {x : String} :
    x ∈ sharedSpecs a b ↔ x ∈ a ∧ x ∈ b := by
  unfold sharedSpecs
  rw [List.mem_filter]
  constructor
  · rintro ⟨h1, h2⟩
    exact ⟨mem_of_mem_dedupByKeyAux id h1, List.elem_iff.mp h2⟩
  · rintro ⟨h1, h2⟩
    exact ⟨mem_dedupByKey_id.mpr h1, List.elem_iff.mpr h2⟩

theorem sharedSpecs_eq_nil_iff {a b : List String} :
    sharedSpecs a b = [] ↔ ∀ x, ¬(x ∈ a ∧ x ∈ b) := by
  simp [List.eq_nil_iff_forall_not_mem, mem_sharedSpecs]

theorem sharedSpecs_nil_comm {a b : List String} :
    sharedSpecs a b = [] ↔ sharedSpecs b a = [] := by
  simp only [sharedSpecs_eq_nil_iff]
  constructor <;> intro h x hx <;> exact h x ⟨hx.2, hx.1⟩

theorem sharedSpecs_nodup (a b : List String) : (sharedSpecs a b).Nodup :=
  (dedupByKey_id_nodup a).filter _

theorem sharedSpecs_toFinset (a b : List String) :
    (sharedSpecs a b).toFinset = a.toFinset ∩ b.toFinset := by
  ext x
  simp [mem_sharedSpecs]

theorem sharedSpecs_length_comm (a b : List String) :
    (sharedSpecs a b).length = (sharedSpecs b a).length := by
  rw [← List.toFinset_card_of_nodup (sharedSpecs_nodup a b),
    ← List.toFinset_card_of_nodup (sharedSpecs_nodup b a),
    sharedSpecs_toFinset, sharedSpecs_toFinset, Finset.inter_comm]

theorem mem_replaceUserById {p u : UserProfile} :
    ∀ {users : List UserProfile}, u ∈ replaceUserById p users → u = p ∨ u ∈ users := by
  intro users
  induction users with
  | nil => intro h; simp [replaceUserById] at h
  | cons v vs ih =>
    intro h
    by_cases hv : v.id = p.id
    · simp only [replaceUserById, if_pos hv, List.mem_cons] at h
      rcases h with rfl | h
      · exact Or.inl rfl
      · exact Or.inr (List.mem_cons_of_mem _ h)
    · simp only [replaceUserById, if_neg hv, List.mem_cons] at h
      rcases h with rfl | h
      · exact Or.inr (List.mem_cons_self _ _)
      · rcases ih h with h | h
        · exact Or.inl h
        · exact Or.inr (List.mem_cons_of_mem _ h)

theorem mem_replaceUserById_iff {p : UserProfile} :
    ∀ {users : List UserProfile}, users.Pairwise (fun u v => u.id ≠ v.id) →
      (∃ w ∈ users, w.id = p.id) → ∀ {u : UserProfile},
      (u ∈ replaceUserById p users ↔ (u ∈ users ∧ u.id ≠ p.id) ∨ u = p) := by
  intro users
  induction users with
  | nil =>
    rintro _ ⟨w, hw, _⟩
    simp at hw
  | cons v vs ih =>
    intro hnodup hex u
    rcases List.pairwise_cons.mp hnodup with ⟨hvne, hvs⟩
    by_cases hv : v.id = p.id
    · simp only [replaceUserById, if_pos hv, List.mem_cons]
      constructor
      · rintro (rfl | h)
        · exact Or.inr rfl
        · refine Or.inl ⟨Or.inr h, ?_⟩
          intro hc
          exact hvne u h (by rw [hv, ← hc])
      · rintro (⟨hmem, hne⟩ | rfl)
        · rcases hmem with rfl | h
          · exact absurd hv hne
          · exact Or.inr h
        · exact Or.inl rfl
    · have hex2 : ∃ w ∈ vs, w.id = p.id := by
        rcases hex with ⟨w, hw, hwid⟩
        rcases List.mem_cons.mp hw with rfl | hw
        · exact absurd hwid hv
        · exact ⟨w, hw, hwid⟩
      simp only [replaceUserById, if_neg hv, List.mem_cons]
      rw [ih hvs hex2]
      constructor
      · rintro (rfl | (⟨hm, hne⟩ | rfl))
        · exact Or.inl ⟨Or.inl rfl, hv⟩
        · exact Or.inl ⟨Or.inr hm, hne⟩
        · exact Or.inr rfl
      · rintro (⟨hm, hne⟩ | rfl)
        · rcases hm with rfl | hm
          · exact Or.inl rfl
          · exact Or.inr (Or.inl ⟨hm, hne⟩)
        · exact Or.inr (Or.inr rfl)

theorem replaceUserById_pairwise {p : UserProfile} :
    ∀ {users : List UserProfile}, users.Pairwise (fun u v => u.id ≠ v.id) →
      (replaceUserById p users).Pairwise (fun u v => u.id ≠ v.id) := by
  intro users
  induction users with
  | nil => intro; simp [replaceUserById]
  | cons v vs ih =>
    intro h
    rcases List.pairwise_cons.mp h with ⟨hvne, hvs⟩
    by_cases hv : v.id = p.id
    · simp only [replaceUserById, if_pos hv]
      refine List.Pairwise.cons (fun u hu => ?_) hvs
      rw [← hv]
      exact hvne u hu
    · simp only [replaceUserById, if_neg hv]
      refine List.Pairwise.cons (fun u hu => ?_) (ih hvs)
      rcases mem_replaceUserById hu with rfl | hu
      · exact hv
      · exact hvne u hu

theorem mem_replaceUserById_self {p : UserProfile} :
    ∀ {users : List UserProfile}, (∃ w ∈ users, w.id = p.id) →
      p ∈ replaceUserById p users := by
  intro users
  induction users with
  | nil =>
    rintro ⟨w, hw, _⟩
    simp at hw
  | cons v vs ih =>
    rintro ⟨w, hw, hwid⟩
    by_cases hv : v.id = p.id
    · simp [replaceUserById, if_pos hv]
    · simp only [replaceUserById, if_neg hv]
      rcases List.mem_cons.mp hw with rfl | hw
      · exact absurd hwid hv
      · exact List.mem_cons_of_mem _ (ih ⟨w, hw, hwid⟩)

theorem add_user_nodup {p : UserProfile} {users : List UserProfile}
    (h : users.Pairwise (fun u v => u.id ≠ v.id)) :
    (add_user_to_database p users).Pairwise (fun u v => u.id ≠ v.id) := by
  unfold add_user_to_database
  by_cases hany : users.any (fun v => v.id == p.id) = true
  · rw [if_pos hany]
    exact replaceUserById_pairwise h
  · rw [if_neg hany]
    rw [List.pairwise_append]
    refine ⟨h, by simp, ?_⟩
    intro u hu b hb
    rcases List.mem_singleton.mp hb with rfl
    have := List.any_eq_false.mp (Bool.not_eq_true _ ▸ hany) u hu
    simpa using this

theorem mem_add_user_self {p : UserProfile} {users : List UserProfile} :
    p ∈ add_user_to_database p users := by
  unfold add_user_to_database
  by_cases hany : users.any (fun v => v.id == p.id) = true
  · rw [if_pos hany]
    rcases List.any_eq_true.mp hany with ⟨w, hw, hwid⟩
    exact mem_replaceUserById_self ⟨w, hw, by simpa using hwid⟩
  · rw [if_neg hany]
    simp

theorem mem_add_user_iff {p : UserProfile} {users : List UserProfile}
    (hnodup : users.Pairwise (fun u v => u.id ≠ v.id)) {u : UserProfile} :
    u ∈ add_user_to_database p users ↔ (u ∈ users ∧ u.id ≠ p.id) ∨ u = p := by
  unfold add_user_to_database
  by_cases hany : users.any (fun v => v.id == p.id) = true
  · rw [if_pos hany]
    rcases List.any_eq_true.mp hany with ⟨w, hw, hwid⟩
    exact mem_replaceUserById_iff hnodup ⟨w, hw, by simpa using hwid⟩
  · rw [if_neg hany]
    have hall := List.any_eq_false.mp (Bool.not_eq_true _ ▸ hany)
    simp only [List.mem_append, List.mem_singleton]
    constructor
    · rintro (h | rfl)
      · exact Or.inl ⟨h, by simpa using hall u h⟩
      · exact Or.inr rfl
    · rintro (⟨h, _⟩ | rfl)
      · exact Or.inl h
      · exact Or.inr rfl

theorem pairwise_id_inj {users : List UserProfile}
    (h : users.Pairwise (fun u v => u.id ≠ v.id)) :
    ∀ u ∈ users, ∀ v ∈ users, u.id = v.id → u = v := by
  induction users with
  | nil => simp
  | cons w ws ih =>
    rcases List.pairwise_cons.mp h with ⟨hw, hws⟩
    intro u hu v hv heq
    rcases List.mem_cons.mp hu with rfl | hu2
    · rcases List.mem_cons.mp hv with rfl | hv2
      · rfl
      · exact absurd heq (hw v hv2)
    · rcases List.mem_cons.mp hv with rfl | hv2
      · exact absurd heq.symm (hw u hu2)
      · exact ih hws u hu2 v hv2 heq

theorem connectionCandidate_spec {p o : UserProfile} {ex : List (String × String)}
    {e : NetEdge} (h : connectionCandidate p ex o = some e) :
    e.src = p.id ∧ e.dst = o.id ∧
    e.strength = (sharedSpecs p.specializations o.specializations).length ∧
    sharedSpecs p.specializations o.specializations ≠ [] ∧
    (p.id, o.id) ∉ ex ∧ (o.id, p.id) ∉ ex := by
  unfold connectionCandidate at h
  split_ifs at h with hc
  · injection h with h
    subst h
    exact ⟨rfl, rfl, rfl, hc.1, hc.2.1, hc.2.2⟩

theorem connectionCandidate_some {p o : UserProfile} {ex : List (String × String)}
    (h1 : sharedSpecs p.specializations o.specializations ≠ [])
    (h2 : (p.id, o.id) ∉ ex) (h3 : (o.id, p.id) ∉ ex) :
    ∃ e, connectionCandidate p ex o = some e := by
  unfold connectionCandidate
  rw [if_pos ⟨h1, h2, h3⟩]
  exact ⟨_, rfl⟩

theorem filter_unique {α : Type} {R : α → α → Prop} {pd : α → Bool} :
    ∀ {l : List α}, l.Pairwise R →
      (∀ a b, pd a = true → pd b = true → ¬R a b) →
      ∀ {e : α}, e ∈ l → pd e = true → l.filter pd = [e] := by
  intro l
  induction l with
  | nil => intro _ _ e he; simp at he
  | cons x xs ih =>
    intro hpair himp e he hpe
    rcases List.pairwise_cons.mp hpair with ⟨hx, hxs⟩
    rcases List.mem_cons.mp he with rfl | he2
    · rw [List.filter_cons, if_pos hpe]
      have hnil : xs.filter pd = [] := by
        rw [List.filter_eq_nil_iff]
        intro y hy hpy
        exact himp e y hpe hpy (hx y hy)
      rw [hnil]
    · have hpx : pd x = false := by
        by_contra hc
        have hx2 : pd x = true := by
          cases h : pd x
          · exact absurd h hc
          · rfl
        exact himp x e hx2 hpe (hx e he2)
      rw [List.filter_cons]
      simp only [hpx, Bool.false_eq_true, if_false]
      exact ih hxs himp he2 hpe

theorem pairMatches_iff {a b : String} {e : NetEdge} :
    pairMatches a b e = true ↔
      (e.src = a ∧ e.dst = b) ∨ (e.src = b ∧ e.dst = a) := by
  simp [pairMatches, Bool.or_eq_true, Bool.and_eq_true, beq_iff_eq]

theorem pairMatches_comm {a b : String} {e : NetEdge} :
    pairMatches a b e = pairMatches b a e := by
  simp only [pairMatches]
  rw [Bool.or_comm]

theorem pairMatches_to_samePair {a b : String} {e₁ e₂ : NetEdge}
    (h1 : pairMatches a b e₁ = true) (h2 : pairMatches a b e₂ = true) :
    samePair e₁ e₂ := by
  rcases pairMatches_iff.mp h1 with ⟨h1s, h1d⟩ | ⟨h1s, h1d⟩ <;>
    rcases pairMatches_iff.mp h2 with ⟨h2s, h2d⟩ | ⟨h2s, h2d⟩ <;>
    simp [samePair, h1s, h1d, h2s, h2d]

theorem edgesOf_addUserFull (d : UsersData) (p : UserProfile) :
    edgesOf (addUserFull d p) =
      create_user_connections p (add_user_to_database p d.users) (edgesOf d) := rfl

theorem users_addUserFull (d : UsersData) (p : UserProfile) :
    (addUserFull d p).users = add_user_to_database p d.users := rfl

/-- One `add_user_to_database` + `update_network_data` step keeps the
registry invariant, provided the incoming profile agrees on
specializations with any same-id profile already stored. -/
theorem addUserFull_inv {d : UsersData} {p : UserProfile} (hinv : RegInv d)
    (hcons : ∀ u ∈ d.users, u.id = p.id → u.specializations = p.specializations) :
    RegInv (addUserFull d p) ∧
    ∀ u ∈ (addUserFull d p).users, u ∈ d.users ∨ u = p := by
  obtain ⟨hN, hS, hC, hD⟩ := hinv
  have hN2 : (add_user_to_database p d.users).Pairwise (fun u v => u.id ≠ v.id) :=
    add_user_nodup hN
  have hmemU : ∀ u : UserProfile, u ∈ add_user_to_database p d.users ↔
      (u ∈ d.users ∧ u.id ≠ p.id) ∨ u = p := fun u => mem_add_user_iff hN
  have hpU : p ∈ add_user_to_database p d.users := mem_add_user_self
  have hedges : edgesOf (addUserFull d p) =
      edgesOf d ++ ((add_user_to_database p d.users).filter
        (fun o => o.id != p.id)).filterMap
        (connectionCandidate p ((edgesOf d).map (fun e => (e.src, e.dst)))) := rfl
  have hfiltmem : ∀ o : UserProfile,
      o ∈ (add_user_to_database p d.users).filter (fun o => o.id != p.id) ↔
      (o ∈ d.users ∧ o.id ≠ p.id) := by
    intro o
    rw [List.mem_filter]
    constructor
    · rintro ⟨hmem, hbo⟩
      have hone : o.id ≠ p.id := by simpa using hbo
      rcases (hmemU o).mp hmem with ⟨hd2, _⟩ | rfl
      · exact ⟨hd2, hone⟩
      · exact absurd rfl hone
    · rintro ⟨hd2, hone⟩
      exact ⟨(hmemU o).mpr (Or.inl ⟨hd2, hone⟩), by simpa using hone⟩
  have htransfer : ∀ u ∈ d.users, ∃ u2, u2 ∈ add_user_to_database p d.users ∧
      u2.id = u.id ∧ u2.specializations = u.specializations := by
    intro u hu
    by_cases hid : u.id = p.id
    · exact ⟨p, hpU, hid.symm, (hcons u hu hid).symm⟩
    · exact ⟨u, (hmemU u).mpr (Or.inl ⟨hu, hid⟩), rfl, rfl⟩
  have hS2 : edgeSound (addUserFull d p) := by
    intro e he
    rw [hedges] at he
    rcases List.mem_append.mp he with heE | heN
    · obtain ⟨u, hu, v, hv, hsrc, hdst, hne, hsh, hstr⟩ := hS e heE
      obtain ⟨u2, hu2, hui, hus⟩ := htransfer u hu
      obtain ⟨v2, hv2, hvi, hvs⟩ := htransfer v hv
      refine ⟨u2, by rw [users_addUserFull]; exact hu2,
        v2, by rw [users_addUserFull]; exact hv2, ?_, ?_, ?_, ?_, ?_⟩
      · rw [hui]; exact hsrc
      · rw [hvi]; exact hdst
      · rw [hui, hvi]; exact hne
      · rw [hus, hvs]; exact hsh
      · rw [hus, hvs]; exact hstr
    · obtain ⟨o, hof, hco⟩ := List.mem_filterMap.mp heN
      obtain ⟨hsrc, hdst, hstr, hsh, _, _⟩ := connectionCandidate_spec hco
      obtain ⟨hod, hone⟩ := (hfiltmem o).mp hof
      refine ⟨p, by rw [users_addUserFull]; exact hpU,
        o, by rw [users_addUserFull]; exact (hmemU o).mpr (Or.inl ⟨hod, hone⟩),
        hsrc, hdst, fun hc => hone hc.symm, hsh, hstr⟩
  have hkey : ∀ o ∈ d.users, o.id ≠ p.id →
      sharedSpecs p.specializations o.specializations ≠ [] →
      ∃ e ∈ edgesOf (addUserFull d p), pairMatches p.id o.id e = true := by
    intro o hod hone hsh
    rw [hedges]
    by_cases hexists : ∃ e ∈ edgesOf d, pairMatches p.id o.id e = true
    · obtain ⟨e, heE, hm⟩ := hexists
      exact ⟨e, List.mem_append_left _ heE, hm⟩
    · push_neg at hexists
      have h2 : (p.id, o.id) ∉ (edgesOf d).map (fun e => (e.src, e.dst)) := by
        intro hc
        rcases List.mem_map.mp hc with ⟨e, heE, heq⟩
        have h1 : e.src = p.id ∧ e.dst = o.id :=
          ⟨congrArg Prod.fst heq, congrArg Prod.snd heq⟩
        exact hexists e heE (pairMatches_iff.mpr (Or.inl h1))
      have h3 : (o.id, p.id) ∉ (edgesOf d).map (fun e => (e.src, e.dst)) := by
        intro hc
        rcases List.mem_map.mp hc with ⟨e, heE, heq⟩
        have h1 : e.src = o.id ∧ e.dst = p.id :=
          ⟨congrArg Prod.fst heq, congrArg Prod.snd heq⟩
        exact hexists e heE (pairMatches_iff.mpr (Or.inr h1))
      obtain ⟨e, hce⟩ := connectionCandidate_some hsh h2 h3
      obtain ⟨hsrc, hdst, _, _, _, _⟩ := connectionCandidate_spec hce
      refine ⟨e, List.mem_append_right _ ?_, pairMatches_iff.mpr (Or.inl ⟨hsrc, hdst⟩)⟩
      exact List.mem_filterMap.mpr ⟨o, (hfiltmem o).mpr ⟨hod, hone⟩, hce⟩
  have hC2 : edgeComplete (addUserFull d p) := by
    intro u hu v hv hne hsh
    rw [users_addUserFull] at hu hv
    rcases (hmemU u).mp hu with ⟨hud, hune⟩ | rfl
    · rcases (hmemU v).mp hv with ⟨hvd, hvne⟩ | rfl
      · obtain ⟨e, heE, hm⟩ := hC u hud v hvd hne hsh
        exact ⟨e, by rw [hedges]; exact List.mem_append_left _ heE, hm⟩
      · obtain ⟨e, heN, hm⟩ := hkey u hud hune
          (fun hc => hsh (sharedSpecs_nil_comm.mp hc))
        exact ⟨e, heN, by rw [pairMatches_comm]; exact hm⟩
    · rcases (hmemU v).mp hv with ⟨hvd, hvne⟩ | rfl
      · obtain ⟨e, heN, hm⟩ := hkey v hvd hvne hsh
        exact ⟨e, heN, hm⟩
      · exact absurd rfl hne
  have hD2 : edgeNodup (addUserFull d p) := by
    rw [edgeNodup, hedges, List.pairwise_append]
    refine ⟨hD, ?_, ?_⟩
    · rw [List.pairwise_filterMap]
      have hPf : ((add_user_to_database p d.users).filter
          (fun o => o.id != p.id)).Pairwise (fun u v => u.id ≠ v.id) :=
        hN2.sublist (List.filter_sublist _)
      refine hPf.imp_of_mem ?_
      intro o₁ o₂ h1f h2f hne12
      intro e₁ he₁ e₂ he₂
      obtain ⟨h1s, h1d, _, _, _, _⟩ := connectionCandidate_spec (Option.mem_def.mp he₁)
      obtain ⟨h2s, h2d, _, _, _, _⟩ := connectionCandidate_spec (Option.mem_def.mp he₂)
      have h2one : o₂.id ≠ p.id := ((hfiltmem o₂).mp h2f).2
      intro hsp
      rcases hsp with ⟨hss, hdd⟩ | ⟨hsd, hds⟩
      · rw [h1d, h2d] at hdd
        exact hne12 hdd
      · exact h2one ((h2d.symm.trans hsd.symm).trans h1s)
    · intro e₁ he₁E e₂ he₂N
      obtain ⟨o, hof, hco⟩ := List.mem_filterMap.mp he₂N
      obtain ⟨h2s, h2d, _, _, hnotin1, hnotin2⟩ := connectionCandidate_spec hco
      intro hsp
      rcases hsp with ⟨hss, hdd⟩ | ⟨hsd, hds⟩
      · exact hnotin1 (List.mem_map.mpr ⟨e₁, he₁E, by rw [hss, h2s, hdd, h2d]⟩)
      · exact hnotin2 (List.mem_map.mpr ⟨e₁, he₁E, by rw [hsd, h2d, hds, h2s]⟩)
  refine ⟨⟨?_, hS2, hC2, hD2⟩, ?_⟩
  · rw [usersNodup, users_addUserFull]
    exact hN2
  · intro u hu
    rw [users_addUserFull] at hu
    rcases (hmemU u).mp hu with ⟨hud, _⟩ | rfl
    · exact Or.inl hud
    · exact Or.inr rfl

theorem foldl_addUserFull_inv (P : UserProfile → Prop)
    (hPc : ∀ u v, P u → P v → u.id = v.id → u.specializations = v.specializations) :
    ∀ (qs : List UserProfile) (d : UsersData), RegInv d → (∀ u ∈ d.users, P u) →
      (∀ q ∈ qs, P q) →
      RegInv (qs.foldl addUserFull d) ∧ ∀ u ∈ (qs.foldl addUserFull d).users, P u := by
  intro qs
  induction qs with
  | nil => exact fun d h1 h2 _ => ⟨h1, h2⟩
  | cons q qs ih =>
    intro d h1 h2 h3
    have hq : P q := h3 q (List.mem_cons_self _ _)
    have step := addUserFull_inv h1 (fun u hu hid => hPc u q (h2 u hu) hq hid)
    refine ih (addUserFull d q) step.1 ?_ (fun x hx => h3 x (List.mem_cons_of_mem _ hx))
    intro u hu
    rcases step.2 u hu with h | rfl
    · exact h2 u h
    · exact hq

theorem runUpserts_inv (ps : List UserProfile) (hc : specConsistent ps) :
    RegInv (runUpserts ps) ∧ ∀ u ∈ (runUpserts ps).users, u ∈ ps := by
  refine foldl_addUserFull_inv (fun u => u ∈ ps)
    (fun u v hu hv hid => hc u hu v hv hid) ps
    { users := [], categories := [], network := none } ?_ (by simp) (fun q hq => hq)
  refine ⟨List.Pairwise.nil, ?_, ?_, ?_⟩
  · intro e he
    simp [edgesOf] at he
  · intro u hu
    simp at hu
  · show (edgesOf { users := [], categories := [], network := none }).Pairwise _
    simp [edgesOf]

/-- C3 (amended): over any upsert sequence in which each user id carries
the same specializations every time it is upserted, the network holds at
most one edge per unordered pair; a pair of current users sharing at least
one specialization has exactly one edge, whose strength is the number of
shared specializations, regardless of processing order; a pair sharing
none has no edge; and re-running inference (any repetition inside the
sequence) does not duplicate an existing edge.  Without that proviso the
claim fails: edges created earlier are never updated or removed when a
profile's specializations change (see the counterexample). -/
theorem edge_inference_spec (ps : List UserProfile) (hc : specConsistent ps) :
    (edgesOf (runUpserts ps)).Pairwise (fun e₁ e₂ => ¬samePair e₁ e₂) ∧
    ∀ u ∈ (runUpserts ps).users, ∀ v ∈ (runUpserts ps).users, u.id ≠ v.id →
      (sharedSpecs u.specializations v.specializations ≠ [] →
        ∃ e, (edgesOf (runUpserts ps)).filter (pairMatches u.id v.id) = [e] ∧
          e.strength = (sharedSpecs u.specializations v.specializations).length) ∧
      (sharedSpecs u.specializations v.specializations = [] →
        (edgesOf (runUpserts ps)).filter (pairMatches u.id v.id) = []) := by
  obtain ⟨⟨hN, hS, hC, hD⟩, _⟩ := runUpserts_inv ps hc
  refine ⟨hD, ?_⟩
  intro u hu v hv hne
  constructor
  · intro hsh
    obtain ⟨e, he, hm⟩ := hC u hu v hv hne hsh
    have hfilter : (edgesOf (runUpserts ps)).filter (pairMatches u.id v.id) = [e] :=
      filter_unique hD
        (fun a b ha hb hab => hab (pairMatches_to_samePair ha hb)) he hm
    refine ⟨e, hfilter, ?_⟩
    obtain ⟨u2, hu2, v2, hv2, hsrc, hdst, _, _, hstr⟩ := hS e he
    rcases pairMatches_iff.mp hm with ⟨h1, h2⟩ | ⟨h1, h2⟩
    · have hu2u : u2 = u := pairwise_id_inj hN u2 hu2 u hu (by rw [← hsrc, h1])
      have hv2v : v2 = v := pairwise_id_inj hN v2 hv2 v hv (by rw [← hdst, h2])
      rw [hstr, hu2u, hv2v]
    · have hu2v : u2 = v := pairwise_id_inj hN u2 hu2 v hv (by rw [← hsrc, h1])
      have hv2u : v2 = u := pairwise_id_inj hN v2 hv2 u hu (by rw [← hdst, h2])
      rw [hstr, hu2v, hv2u, sharedSpecs_length_comm]
  · intro hsh
    rw [List.filter_eq_nil_iff]
    intro e he hpe
    obtain ⟨u2, hu2, v2, hv2, hsrc, hdst, _, hsh2, _⟩ := hS e he
    rcases pairMatches_iff.mp hpe with ⟨h1, h2⟩ | ⟨h1, h2⟩
    · have hu2u : u2 = u := pairwise_id_inj hN u2 hu2 u hu (by rw [← hsrc, h1])
      have hv2v : v2 = v := pairwise_id_inj hN v2 hv2 v hv (by rw [← hdst, h2])
      rw [hu2u, hv2v] at hsh2
      exact hsh2 hsh
    · have hu2v : u2 = v := pairwise_id_inj hN u2 hu2 v hv (by rw [← hsrc, h1])
      have hv2u : v2 = u := pairwise_id_inj hN v2 hv2 u hu (by rw [← hdst, h2])
      rw [hu2v, hv2u] at hsh2
      exact hsh2 (sharedSpecs_nil_comm.mp hsh)

/-- C3 counterexample: upsert `a` with specialization `X`, then `b` with
`X` (an edge b→a of strength 1 appears), then re-upsert `a` with
specialization `Z`.  Afterwards `a` and `b` share no specialization, yet
the stale edge remains. -/
theorem edge_inference_stale_edge :
    (runUpserts [tp ("a") ["X"], tp ("b") ["X"], tp ("a") ["Z"]]).users.map
      (fun u => (u.id, u.specializations)) = [("a", ["Z"]), ("b", ["X"])] ∧
    (edgesOf (runUpserts [tp ("a") ["X"], tp ("b") ["X"], tp ("a") ["Z"]])).map
      (fun e => (e.src, e.dst, e.strength)) = [("b", "a", 1)] ∧
    sharedSpecs ["Z"] ["X"] = [] :=
  ⟨by decide, by decide, by decide⟩

theorem edge_inference_spec_witness :
    specConsistent [tp ("a") ["X"], tp ("b") ["X"]] ∧
    (edgesOf (runUpserts [tp ("a") ["X"], tp ("b") ["X"]])).Pairwise
      (fun e₁ e₂ => ¬samePair e₁ e₂) :=
  ⟨by decide, (edge_inference_spec [tp ("a") ["X"], tp ("b") ["X"]] (by decide)).1⟩

end Mypage
